import Mathlib

/-!
Verification of the caddy-psl domain-classification core (`src/handler.go`)
against its natural-language specification.

Strings are embedded as `List Char` (the inputs are assumed ASCII/punycode,
so Go byte indexing coincides with character indexing).  The handler code in
`src/handler.go` is translated directly; the public-suffix rule lookup that
the handler borrows from the `golang.org/x/net/publicsuffix` library (whose
source is not part of this repository) is modelled from the specification's
description of `RuleDatabase.lookup` and `MatchResult`.
-/

/-- Authority partition of a PSL rule (spec §3, `Rule.authority`). -/
inductive Authority where
  | ICANN
  | PRIVATE
deriving DecidableEq, Repr

/-- Kind of a PSL rule (spec §3, `Rule.kind`). -/
inductive RuleKind where
  | Exact
  | Wildcard
  | Exception
deriving DecidableEq, Repr

/-- One entry of the suffix database (spec §3).  `labels` is stored
right-to-left (suffix-anchored), e.g. `["uk","co"]` for the rule `co.uk`. -/
structure Rule where
  labels : List (List Char)
  kind : RuleKind
  authority : Authority
deriving DecidableEq, Repr

/-- Characters of a string literal, the `List Char` form used throughout. -/
def s2l (s : String) : List Char := s.toList

/-- Whether the string contains a dot, as `strings.IndexByte(s, '.') >= 0`
at src/handler.go:175. -/
def hasDot : List Char → Bool
  | [] => false
  | c :: rest => decide (c = '.') || hasDot rest

/-- `strings.Cut(s, ".")` from src/handler.go:177: split at the first dot,
`none` when the string has no dot (Go's `ok = false`). -/
def cutDot : List Char → Option (List Char × List Char)
  | [] => none
  | c :: rest =>
    if c = '.' then some ([], rest)
    else
      match cutDot rest with
      | some (b, a) => some (c :: b, a)
      | none => none

/-- The matched suffix with its leftmost label removed (the `domain` update
at src/handler.go:177); identity when there is no dot. -/
def peelOne (s : List Char) : List Char :=
  match cutDot s with
  | some (_, a) => a
  | none => s

/-- `strings.LastIndex(s, string(c))`: index of the last occurrence of `c`,
`-1` when absent (src/handler.go:163). -/
def lastIndexOf (c : Char) : List Char → Int
  | [] => -1
  | a :: rest =>
    let r := lastIndexOf c rest
    if 0 ≤ r then r + 1
    else if a = c then 0 else -1

/-- Dot-splitting of a domain into labels, left-to-right (spec §3 `Domain`);
the empty string splits into one empty label. -/
def splitDots : List Char → List (List Char)
  | [] => [[]]
  | c :: rest =>
    if c = '.' then [] :: splitDots rest
    else
      match splitDots rest with
      | l :: ls => (c :: l) :: ls
      | [] => [[c]]

/-- Join labels with dots, inverse of `splitDots` (spec §4.2: "join the last
`suffix_label_count` labels of `domain` with `.`"). -/
def joinDots : List (List Char) → List Char
  | [] => []
  | [l] => l
  | l :: l' :: ls => l ++ '.' :: joinDots (l' :: ls)

/-- The last `n` labels of a label list (spec §4.1: "the last L labels"). -/
def lastLabels (n : Nat) (ls : List (List Char)) : List (List Char) :=
  ls.drop (ls.length - n)

/-- Number of dot-separated labels of a string. -/
def labelCount (s : List Char) : Nat := (splitDots s).length

/-- Modelled from the spec (§4.1): whether an `Exception` rule matches at
its own depth `L` — the last `L` labels of the (reversed) domain equal the
rule's labels. -/
def ruleExc (r : Rule) (rl : List (List Char)) (L : Nat) : Bool :=
  decide (r.kind = RuleKind.Exception) && decide (r.labels.length = L)
    && decide (L ≤ rl.length) && decide (rl.take L = r.labels)

/-- Modelled from the spec (§4.1): whether a non-exception rule matches at
depth `L`: exact match on labels, or a wildcard match where the leftmost of
the `L` labels matches any single label. -/
def ruleHit (r : Rule) (rl : List (List Char)) (L : Nat) : Bool :=
  (decide (r.kind = RuleKind.Exact) && decide (r.labels.length = L)
    && decide (L ≤ rl.length) && decide (rl.take L = r.labels))
  || (decide (r.kind = RuleKind.Wildcard) && decide (r.labels.length + 1 = L)
    && decide (L ≤ rl.length) && decide (rl.take (L - 1) = r.labels))

/-- Depth at which a rule can match: a wildcard consumes one extra label. -/
def ruleDepth (r : Rule) : Nat :=
  match r.kind with
  | RuleKind.Wildcard => r.labels.length + 1
  | _ => r.labels.length

/-- Modelled from the spec (§4.1): `database.max_rule_depth`. -/
def maxRuleDepth (db : List Rule) : Nat :=
  db.foldr (fun r m => max (ruleDepth r) m) 0

/-- Modelled from the spec (§4.1): examine suffix lengths from `L` down
to 1; at each depth exception rules are checked first and win with
`suffix_label_count = len(rule.labels) - 1`; otherwise the first exact or
wildcard match at the greatest depth wins; if no rule matches at any depth
the implicit default applies: `(1, ICANN)`.  `rl` is the reversed label
list of the domain. -/
def lookupFrom (db : List Rule) (rl : List (List Char)) : Nat → Nat × Authority
  | 0 => (1, Authority.ICANN)
  | L + 1 =>
    match db.find? (fun r => ruleExc r rl (L + 1)) with
    | some r => (L, r.authority)
    | none =>
      match db.find? (fun r => ruleHit r rl (L + 1)) with
      | some r => (L + 1, r.authority)
      | none => lookupFrom db rl L

/-- Modelled from the spec (§4.1): `lookup(domain) -> MatchResult` over the
domain's labels, scanning from `min(len(domain.labels), max_rule_depth)`.
The empty domain is invalid (spec §3) and yields empty, non-ICANN results
downstream (spec §7: "all derived outputs are empty string / false"; the
wrapped library likewise returns `("", false)` there): its label list
`[[]]` — the single empty label — matches no rule and does not take the
ICANN default, so its result is that one empty label with non-ICANN
(`PRIVATE`) authority. -/
def lookup (db : List Rule) (labels : List (List Char)) : Nat × Authority :=
  if labels = [[]] then (1, Authority.PRIVATE)
  else lookupFrom db labels.reverse (min labels.length (maxRuleDepth db))

/-- Modelled from the spec: `publicsuffix.PublicSuffix` as used at
src/handler.go:121,134,138,170 — the library's rule lookup, not part of this
repository.  Returns the suffix string made of the last
`suffix_label_count` labels together with whether the winning authority is
ICANN (spec §4.1 `lookup` and §4.2 `domain_suffix`/`is_icann`). -/
def publicSuffix (db : List Rule) (domain : List Char) : List Char × Bool :=
  let ls := splitDots domain
  let r := lookup db ls
  (joinDots (lastLabels r.1 ls), decide (r.2 = Authority.ICANN))

/-- `icannSuffix` from src/handler.go:168-183, with explicit fuel standing
for the unbounded `for` loop: `none` means the loop has not returned within
`fuel` iterations.  Each iteration looks up the current domain; an ICANN
match is returned; otherwise, if the matched suffix contains a dot it is
cut after its first label and the loop continues on the remainder, and if
it does not, the loop continues with the domain unchanged. -/
def icannSuffixFuel (db : List Rule) : Nat → List Char → Option (List Char)
  | 0, _ => none
  | n + 1, domain =>
    let r := publicSuffix db domain
    if r.2 then some r.1
    else if hasDot r.1 then
      match cutDot r.1 with
      | some (_, rest) => icannSuffixFuel db n rest
      | none => some []
    else icannSuffixFuel db n domain

/-- The `public_suffix` placeholder value (src/handler.go:127-131): the
peeling loop run with enough fuel for any terminating execution. -/
def publicSuffixOf (db : List Rule) (domain : List Char) : Option (List Char) :=
  icannSuffixFuel db (domain.length + 1) domain

/-- `suffixPlusOne` from src/handler.go:155-164: the suffix plus one more
label of the domain, or empty. -/
def suffixPlusOne (domain suffix : List Char) : List Char :=
  if domain.length ≤ suffix.length then []
  else
    let i := domain.length - suffix.length - 1
    if ¬ (domain.getD i ' ' = '.') then []
    else domain.drop (lastIndexOf '.' (domain.take i) + 1).toNat

/-- `registeredDomain` from src/handler.go:149-152, with the fuel of the
inner `icannSuffix` loop made explicit. -/
def registeredDomain (db : List Rule) (fuel : Nat) (domain : List Char) :
    Option (List Char) :=
  (icannSuffixFuel db fuel domain).map (fun ps => suffixPlusOne domain ps)

/-- The `is_icann` placeholder value (src/handler.go:137-139). -/
def isIcann (db : List Rule) (domain : List Char) : Bool :=
  (publicSuffix db domain).2

/-- The `domain_suffix` placeholder value (src/handler.go:133-135). -/
def domainSuffix (db : List Rule) (domain : List Char) : List Char :=
  (publicSuffix db domain).1

/-- The `public_registered_domain` placeholder value
(src/handler.go:120-125): the eTLD-plus-one of the unpeeled match when its
authority is ICANN, else empty. -/
def publicRegisteredDomain (db : List Rule) (domain : List Char) : List Char :=
  let r := publicSuffix db domain
  if r.2 then suffixPlusOne domain r.1 else []

/-- Modelled from the spec (§4.4 HostNormalizer / `net.SplitHostPort` at
src/handler.go:104-108): remove any trailing `:port`; when no
colon-delimited port can be parsed the raw token is used unchanged.  The
handler itself performs no further transformation of the host. -/
def normalizeHost (host : List Char) : List Char :=
  let i := lastIndexOf ':' host
  if i < 0 then host else host.take i.toNat

/-- The `is_icann` output for a raw host token. -/
def hostIsIcann (db : List Rule) (host : List Char) : Bool :=
  isIcann db (normalizeHost host)

/-- The `domain_suffix` output for a raw host token. -/
def hostDomainSuffix (db : List Rule) (host : List Char) : List Char :=
  domainSuffix db (normalizeHost host)

/-- The `public_suffix` output for a raw host token. -/
def hostPublicSuffix (db : List Rule) (host : List Char) : Option (List Char) :=
  publicSuffixOf db (normalizeHost host)

/-- The `registered_domain` output for a raw host token. -/
def hostRegisteredDomain (db : List Rule) (fuel : Nat) (host : List Char) :
    Option (List Char) :=
  registeredDomain db fuel (normalizeHost host)

/-- The `public_registered_domain` output for a raw host token. -/
def hostPublicRegisteredDomain (db : List Rule) (host : List Char) : List Char :=
  publicRegisteredDomain db (normalizeHost host)

/-- Lower-casing of a host string, character by character. -/
def lowerStr (s : List Char) : List Char := s.map Char.toLower

/-- Modelled from the spec (§4.3): position of the last `.` of a string,
`none` when there is none — the "last `.` found in `domain_string[0..i)`"
of the `suffix_plus_one` contract. -/
def lastDotPos : List Char → Option Nat
  | [] => none
  | c :: rest =>
    match lastDotPos rest with
    | some j => some (j + 1)
    | none => if c = '.' then some 0 else none

/-- Modelled from the spec (§4.3): the `suffix_plus_one` contract stated in
the specification's own words — if `len(suffix_string) >= len(domain_string)`
return empty; the character at `i := len(domain_string)-len(suffix_string)-1`
must be `.`, else return empty; otherwise return the substring of
`domain_string` starting just after the last `.` found in
`domain_string[0..i)` through the end of the string. -/
def suffixPlusOneSpec (domain suffix : List Char) : List Char :=
  if suffix.length ≥ domain.length then []
  else
    let i := domain.length - suffix.length - 1
    if domain.getD i ' ' = '.' then
      match lastDotPos (domain.take i) with
      | some j => domain.drop (j + 1)
      | none => domain
    else []

/-- Well-formedness of a rule database, from the spec's data model (§3):
rule labels are the non-empty components of a dotted sequence, a rule has
at least one label, and an exception rule always corresponds to a wildcard
rule so its literal label count is at least two. -/
def WF (db : List Rule) : Prop :=
  ∀ r ∈ db, (∀ l ∈ r.labels, l ≠ []) ∧ r.labels ≠ [] ∧
    (r.kind = RuleKind.Exception → 2 ≤ r.labels.length)

instance : DecidablePred WF := fun db => by
  unfold WF; infer_instance

/-- A small database realizing the spec's literal scenarios: ICANN rules
`com`, `au`, `com.au`, `uk`, `co.uk` and the private rule `blogspot.com`
(labels stored right-to-left). -/
def sampleDB : List Rule :=
  [ ⟨[s2l "com"], RuleKind.Exact, Authority.ICANN⟩,
    ⟨[s2l "au"], RuleKind.Exact, Authority.ICANN⟩,
    ⟨[s2l "au", s2l "com"], RuleKind.Exact, Authority.ICANN⟩,
    ⟨[s2l "uk"], RuleKind.Exact, Authority.ICANN⟩,
    ⟨[s2l "uk", s2l "co"], RuleKind.Exact, Authority.ICANN⟩,
    ⟨[s2l "com", s2l "blogspot"], RuleKind.Exact, Authority.PRIVATE⟩ ]

/-- A well-formed database containing a single-label privately-managed
rule, the shape of input on which the peeling loop cannot make progress. -/
def loopDB : List Rule :=
  [ ⟨[s2l "x"], RuleKind.Exact, Authority.PRIVATE⟩ ]

/-! ### Basic string and label lemmas -/

theorem splitDots_ne_nil (s : List Char) : splitDots s ≠ [] := by
  induction s with
  | nil => simp [splitDots]
  | cons c rest ih =>
    simp only [splitDots]
    split
    · simp
    · cases h : splitDots rest with
      | nil => exact absurd h ih
      | cons l ls => simp

theorem joinDots_cons (l : List Char) (ls : List (List Char)) (h : ls ≠ []) :
    joinDots (l :: ls) = l ++ '.' :: joinDots ls := by
  cases ls with
  | nil => exact absurd rfl h
  | cons l' ls' => rfl

theorem joinDots_splitDots (s : List Char) : joinDots (splitDots s) = s := by
  induction s with
  | nil => rfl
  | cons c rest ih =>
    simp only [splitDots]
    by_cases hc : c = '.'
    · rw [if_pos hc, joinDots_cons _ _ (splitDots_ne_nil rest), ih, hc]
      rfl
    · rw [if_neg hc]
      cases h : splitDots rest with
      | nil => exact absurd h (splitDots_ne_nil rest)
      | cons l ls =>
        rw [h] at ih
        cases ls with
        | nil =>
          show c :: l = c :: rest
          rw [show joinDots [l] = l from rfl] at ih
          rw [ih]
        | cons l' ls' =>
          show (c :: l) ++ '.' :: joinDots (l' :: ls') = c :: rest
          rw [← ih]
          rfl

theorem splitDots_of_hasDot_eq_false (s : List Char) (h : hasDot s = false) :
    splitDots s = [s] := by
  induction s with
  | nil => rfl
  | cons c rest ih =>
    simp only [hasDot, Bool.or_eq_false_iff, decide_eq_false_iff_not] at h
    simp only [splitDots, if_neg h.1, ih h.2]

theorem hasDot_eq_false_iff (s : List Char) : hasDot s = false ↔ '.' ∉ s := by
  induction s with
  | nil => simp [hasDot]
  | cons c rest ih =>
    simp only [hasDot, Bool.or_eq_false_iff, decide_eq_false_iff_not,
      List.mem_cons, ih]
    constructor
    · rintro ⟨h1, h2⟩ (h | h)
      · exact h1 h.symm
      · exact h2 h
    · intro h
      exact ⟨fun hc => h (Or.inl hc.symm), fun hc => h (Or.inr hc)⟩

theorem cutDot_eq_some (s b a : List Char) (h : cutDot s = some (b, a)) :
    s = b ++ '.' :: a := by
  induction s generalizing b a with
  | nil => simp [cutDot] at h
  | cons c rest ih =>
    simp only [cutDot] at h
    by_cases hc : c = '.'
    · rw [if_pos hc] at h
      obtain ⟨rfl, rfl⟩ := by simpa using h
      rw [hc]
      rfl
    · rw [if_neg hc] at h
      cases hr : cutDot rest with
      | none => rw [hr] at h; simp at h
      | some p =>
        obtain ⟨b', a'⟩ := p
        rw [hr] at h
        obtain ⟨rfl, rfl⟩ := by simpa using h
        rw [show (c :: b') ++ '.' :: a' = c :: (b' ++ '.' :: a') from rfl,
          ← ih b' a' hr]

theorem cutDot_some_of_hasDot (s : List Char) (h : hasDot s = true) :
    ∃ b a, cutDot s = some (b, a) := by
  induction s with
  | nil => simp [hasDot] at h
  | cons c rest ih =>
    simp only [hasDot, Bool.or_eq_true, decide_eq_true_eq] at h
    by_cases hc : c = '.'
    · exact ⟨[], rest, by simp [cutDot, hc]⟩
    · obtain ⟨b, a, hba⟩ := ih (h.resolve_left hc)
      exact ⟨c :: b, a, by simp [cutDot, hc, hba]⟩

theorem suffix_cons_self (c : Char) (l : List Char) : l <:+ c :: l := ⟨[c], rfl⟩

theorem joinDots_drop_suffix (ls : List (List Char)) (k : Nat)
    (hk : k < ls.length) :
    joinDots (ls.drop k) = joinDots ls ∨
      ('.' :: joinDots (ls.drop k)) <:+ joinDots ls := by
  induction k generalizing ls with
  | zero => exact Or.inl rfl
  | succ k ih =>
    cases ls with
    | nil => simp at hk
    | cons a ls' =>
      simp only [List.length_cons, Nat.succ_lt_succ_iff] at hk
      have hne : ls' ≠ [] := by
        intro h
        rw [h] at hk
        simp at hk
      have hsub : ('.' :: joinDots ls') <:+ joinDots (a :: ls') := by
        rw [joinDots_cons a ls' hne]
        exact ⟨a, rfl⟩
      have hsub2 : joinDots ls' <:+ joinDots (a :: ls') :=
        (suffix_cons_self '.' _).trans hsub
      rw [List.drop_succ_cons]
      rcases ih ls' hk with h | h
      · rw [h]
        exact Or.inr hsub
      · exact Or.inr (h.trans hsub2)

/-! ### lastIndexOf lemmas -/

theorem lastIndexOf_ge (c : Char) (s : List Char) : -1 ≤ lastIndexOf c s := by
  induction s with
  | nil => simp [lastIndexOf]
  | cons a rest ih =>
    simp only [lastIndexOf]
    split
    · omega
    · split <;> omega

theorem lastIndexOf_eq_neg_one_iff (c : Char) (s : List Char) :
    lastIndexOf c s = -1 ↔ c ∉ s := by
  induction s with
  | nil => simp [lastIndexOf]
  | cons a rest ih =>
    have hge := lastIndexOf_ge c rest
    simp only [lastIndexOf, List.mem_cons]
    split
    · rename_i hr0
      constructor
      · intro h
        omega
      · intro h
        exfalso
        have : lastIndexOf c rest = -1 := ih.mpr (fun hm => h (Or.inr hm))
        omega
    · rename_i hr0
      split
      · rename_i hac
        constructor
        · intro h
          omega
        · intro h
          exact absurd (Or.inl hac.symm) h
      · rename_i hac
        have hrest : lastIndexOf c rest = -1 := by omega
        constructor
        · intro _
          rintro (h | h)
          · exact hac h.symm
          · exact (ih.mp hrest) h
        · intro _
          rfl

theorem lastIndexOf_spec (c : Char) (s : List Char) :
    (lastIndexOf c s + 1).toNat ≤ s.length ∧
      ∀ x ∈ s.drop (lastIndexOf c s + 1).toNat, x ≠ c := by
  induction s with
  | nil => simp [lastIndexOf]
  | cons a rest ih =>
    have hge := lastIndexOf_ge c rest
    simp only [lastIndexOf]
    split
    · rename_i hr0
      have h1 : (lastIndexOf c rest + 1 + 1).toNat
          = (lastIndexOf c rest + 1).toNat + 1 := by omega
      rw [h1]
      refine ⟨by simpa using Nat.succ_le_succ ih.1, ?_⟩
      intro x hx
      exact ih.2 x (by simpa using hx)
    · rename_i hr0
      split
      · rename_i hac
        have hrest : lastIndexOf c rest = -1 := by omega
        have hmem : c ∉ rest := (lastIndexOf_eq_neg_one_iff c rest).mp hrest
        refine ⟨by simp, ?_⟩
        intro x hx
        have hd : (a :: rest).drop ((0 : Int) + 1).toNat = rest := rfl
        rw [hd] at hx
        exact fun hxc => hmem (hxc ▸ hx)
      · rename_i hac
        have hrest : lastIndexOf c rest = -1 := by omega
        have hmem : c ∉ rest := (lastIndexOf_eq_neg_one_iff c rest).mp hrest
        refine ⟨by simp, ?_⟩
        intro x hx
        have hd : (a :: rest).drop ((-1 : Int) + 1).toNat = a :: rest := rfl
        rw [hd] at hx
        rcases List.mem_cons.mp hx with rfl | h
        · exact hac
        · exact fun hxc => hmem (hxc ▸ h)

/-! ### take, drop and getD over appended lists -/

theorem getD_append_length (l : List Char) (x : Char) (r : List Char) (d : Char) :
    (l ++ x :: r).getD l.length d = x := by
  induction l with
  | nil => rfl
  | cons a l' ih =>
    simpa only [List.cons_append, List.length_cons, List.getD_cons_succ] using ih

theorem takeLen_append (l r : List Char) : (l ++ r).take l.length = l := by
  induction l with
  | nil => rfl
  | cons a l' ih =>
    simpa only [List.cons_append, List.length_cons, List.take_succ_cons,
      List.cons.injEq, true_and] using ih

theorem drop_append_le (l r : List Char) (n : Nat) (h : n ≤ l.length) :
    (l ++ r).drop n = l.drop n ++ r := by
  induction l generalizing n with
  | nil =>
    have : n = 0 := Nat.le_zero.mp (by simpa using h)
    subst this
    rfl
  | cons a l' ih =>
    cases n with
    | zero => rfl
    | succ n =>
      simpa only [List.cons_append, List.drop_succ_cons] using
        ih n (by simpa using h)

theorem suffixPlusOne_of_dotSuffix (pre ps : List Char) :
    suffixPlusOne (pre ++ '.' :: ps) ps =
      pre.drop (lastIndexOf '.' pre + 1).toNat ++ '.' :: ps := by
  have hlen : (pre ++ '.' :: ps).length = pre.length + ps.length + 1 := by
    simp [List.length_append]
    omega
  have hgt : ¬ (pre ++ '.' :: ps).length ≤ ps.length := by omega
  have hi : (pre ++ '.' :: ps).length - ps.length - 1 = pre.length := by omega
  have hk := (lastIndexOf_spec '.' pre).1
  simp only [suffixPlusOne]
  rw [if_neg hgt, hi, getD_append_length, if_neg (by simp), takeLen_append]
  exact drop_append_le pre ('.' :: ps) _ hk

theorem splitDots_append_dotless (w ps : List Char) (h : hasDot w = false) :
    splitDots (w ++ '.' :: ps) = w :: splitDots ps := by
  induction w with
  | nil => simp [splitDots]
  | cons a w' ih =>
    simp only [hasDot, Bool.or_eq_false_iff, decide_eq_false_iff_not] at h
    simp only [List.cons_append, splitDots, if_neg h.1, List.append_eq, ih h.2]

/-! ### Lookup lemmas -/

theorem ruleExc_decode {r : Rule} {rl : List (List Char)} {L : Nat}
    (h : ruleExc r rl L = true) :
    r.kind = RuleKind.Exception ∧ r.labels.length = L ∧ L ≤ rl.length ∧
      rl.take L = r.labels := by
  simpa only [ruleExc, Bool.and_eq_true, decide_eq_true_eq, and_assoc] using h

theorem ruleHit_decode {r : Rule} {rl : List (List Char)} {L : Nat}
    (h : ruleHit r rl L = true) :
    (r.kind = RuleKind.Exact ∧ r.labels.length = L ∧ L ≤ rl.length ∧
      rl.take L = r.labels) ∨
    (r.kind = RuleKind.Wildcard ∧ r.labels.length + 1 = L ∧ L ≤ rl.length ∧
      rl.take (L - 1) = r.labels) := by
  simpa only [ruleHit, Bool.or_eq_true, Bool.and_eq_true, decide_eq_true_eq,
    and_assoc] using h

theorem lookupFrom_pos (db : List Rule) (hdb : WF db) (rl : List (List Char)) :
    ∀ n, 1 ≤ (lookupFrom db rl n).1 := by
  intro n
  induction n with
  | zero => exact Nat.le_refl 1
  | succ n ih =>
    simp only [lookupFrom]
    cases hexc : db.find? (fun r => ruleExc r rl (n + 1)) with
    | some r =>
      have hmem := List.mem_of_find?_eq_some hexc
      have hpred := List.find?_some hexc
      obtain ⟨hk, hlen, -, -⟩ := ruleExc_decode hpred
      have h2 := (hdb r hmem).2.2 hk
      simp only
      omega
    | none =>
      cases hhit : db.find? (fun r => ruleHit r rl (n + 1)) with
      | some r => simp
      | none => exact ih

theorem lookup_pos (db : List Rule) (hdb : WF db) (ls : List (List Char)) :
    1 ≤ (lookup db ls).1 := by
  by_cases h : ls = [[]]
  · simp only [lookup, if_pos h]
    exact Nat.le_refl 1
  · simp only [lookup, if_neg h]
    exact lookupFrom_pos db hdb _ _

theorem domainSuffix_dotSuffix (db : List Rule) (hdb : WF db) (d : List Char) :
    domainSuffix db d = d ∨ ('.' :: domainSuffix db d) <:+ d := by
  have hpos := lookup_pos db hdb (splitDots d)
  have hne := splitDots_ne_nil d
  have hlen : 0 < (splitDots d).length := List.length_pos.mpr hne
  have hk : (splitDots d).length - (lookup db (splitDots d)).1
      < (splitDots d).length := by omega
  have h := joinDots_drop_suffix (splitDots d) _ hk
  rw [joinDots_splitDots] at h
  simpa only [domainSuffix, publicSuffix, lastLabels] using h

theorem icannSuffixFuel_succ (db : List Rule) (n : Nat) (d : List Char) :
    icannSuffixFuel db (n + 1) d =
      if (publicSuffix db d).2 then some (publicSuffix db d).1
      else if hasDot (publicSuffix db d).1 then
        match cutDot (publicSuffix db d).1 with
        | some (_, rest) => icannSuffixFuel db n rest
        | none => some []
      else icannSuffixFuel db n d := rfl

theorem icannSuffixFuel_dotSuffix (db : List Rule) (hdb : WF db) :
    ∀ n d s, icannSuffixFuel db n d = some s → s = d ∨ ('.' :: s) <:+ d := by
  intro n
  induction n with
  | zero =>
    intro d s h
    simp [icannSuffixFuel] at h
  | succ n ih =>
    intro d s h
    rw [icannSuffixFuel_succ] at h
    by_cases hic : (publicSuffix db d).2
    · rw [if_pos hic] at h
      obtain rfl : (publicSuffix db d).1 = s := by simpa using h
      exact domainSuffix_dotSuffix db hdb d
    · rw [if_neg hic] at h
      by_cases hd : hasDot (publicSuffix db d).1
      · rw [if_pos hd] at h
        obtain ⟨b, rest, hcut⟩ := cutDot_some_of_hasDot _ hd
        rw [hcut] at h
        have heq := cutDot_eq_some _ _ _ hcut
        have hds : (publicSuffix db d).1 = d ∨
            ('.' :: (publicSuffix db d).1) <:+ d := domainSuffix_dotSuffix db hdb d
        have hsub : ('.' :: rest) <:+ d := by
          have h1 : ('.' :: rest) <:+ (publicSuffix db d).1 := by
            rw [heq]
            exact ⟨b, rfl⟩
          rcases hds with h2 | h2
          · exact h2 ▸ h1
          · exact h1.trans ((suffix_cons_self '.' _).trans h2)
        rcases ih rest s h with rfl | h3
        · exact Or.inr hsub
        · exact Or.inr (h3.trans ((suffix_cons_self '.' _).trans hsub))
      · rw [if_neg hd] at h
        exact ih d s h

/-! ### Relation between the source-side and spec-side dot searches -/

theorem lastIndexOf_eq_lastDotPos (s : List Char) :
    lastIndexOf '.' s = match lastDotPos s with
      | some j => (j : Int)
      | none => -1 := by
  induction s with
  | nil => rfl
  | cons a rest ih =>
    cases hp : lastDotPos rest with
    | some j =>
      have ihj : lastIndexOf '.' rest = (j : Int) := by rw [ih, hp]
      have h0 : (0 : Int) ≤ lastIndexOf '.' rest := by
        rw [ihj]
        exact Int.ofNat_nonneg j
      rw [show lastIndexOf '.' (a :: rest) = lastIndexOf '.' rest + 1 from by
        simp only [lastIndexOf]
        rw [if_pos h0]]
      rw [show lastDotPos (a :: rest) = some (j + 1) from by
        simp only [lastDotPos]
        rw [hp]]
      rw [ihj]
      simp
    | none =>
      have ihn : lastIndexOf '.' rest = -1 := by rw [ih, hp]
      have h0 : ¬ (0 : Int) ≤ lastIndexOf '.' rest := by
        rw [ihn]
        decide
      by_cases hac : a = '.'
      · rw [show lastIndexOf '.' (a :: rest) = 0 from by
          simp only [lastIndexOf]
          rw [if_neg h0, if_pos hac]]
        rw [show lastDotPos (a :: rest) = some 0 from by
          simp only [lastDotPos]
          rw [hp, if_pos hac]]
        rfl
      · rw [show lastIndexOf '.' (a :: rest) = -1 from by
          simp only [lastIndexOf]
          rw [if_neg h0, if_neg hac]]
        rw [show lastDotPos (a :: rest) = none from by
          simp only [lastDotPos]
          rw [hp, if_neg hac]]

theorem suffixPlusOne_eq_spec (domain suffix : List Char) :
    suffixPlusOne domain suffix = suffixPlusOneSpec domain suffix := by
  simp only [suffixPlusOne, suffixPlusOneSpec, ge_iff_le]
  by_cases h1 : domain.length ≤ suffix.length
  · rw [if_pos h1, if_pos h1]
  · rw [if_neg h1, if_neg h1]
    by_cases h2 : domain.getD (domain.length - suffix.length - 1) ' ' = '.'
    · rw [if_neg (by simpa using h2), if_pos h2, lastIndexOf_eq_lastDotPos]
      cases hp : lastDotPos (domain.take (domain.length - suffix.length - 1)) with
      | some j =>
        show domain.drop ((j : Int) + 1).toNat = domain.drop (j + 1)
        congr 1
      | none => rfl
    · rw [if_pos (by simpa using h2), if_neg h2]

theorem labelCount_append_dotless (w ps : List Char) (h : hasDot w = false) :
    labelCount (w ++ '.' :: ps) = labelCount ps + 1 := by
  simp [labelCount, splitDots_append_dotless w ps h]

/-! ### Claim theorems -/

/-- C1: when the longest match is privately managed and spans more than one
label, the peeling loop removes the leftmost label of the previously
matched suffix itself (not of the original domain) and repeats the lookup;
in particular for `foo.blogspot.com` with private rule `blogspot.com`,
`public_suffix` is `"com"`, `domain_suffix` is `"blogspot.com"`,
`is_icann` is `false`, `registered_domain` is `"blogspot.com"` and
`public_registered_domain` is empty. -/
theorem C1_private_peeling :
    (∀ (db : List Rule) (d eTLD : List Char) (n : Nat),
      publicSuffix db d = (eTLD, false) → hasDot eTLD = true →
      icannSuffixFuel db (n + 1) d = icannSuffixFuel db n (peelOne eTLD)) ∧
    publicSuffixOf sampleDB (s2l "foo.blogspot.com") = some (s2l "com") ∧
    domainSuffix sampleDB (s2l "foo.blogspot.com") = s2l "blogspot.com" ∧
    isIcann sampleDB (s2l "foo.blogspot.com") = false ∧
    registeredDomain sampleDB 17 (s2l "foo.blogspot.com")
      = some (s2l "blogspot.com") ∧
    publicRegisteredDomain sampleDB (s2l "foo.blogspot.com") = [] := by
  refine ⟨?_, by decide, by decide, by decide, by decide, by decide⟩
  intro db d eTLD n hps hd
  have hstep : icannSuffixFuel db (n + 1) d =
      if hasDot eTLD then
        match cutDot eTLD with
        | some (_, rest) => icannSuffixFuel db n rest
        | none => some []
      else icannSuffixFuel db n d := by
    rw [icannSuffixFuel_succ, hps]
    rfl
  rw [hstep, if_pos hd]
  obtain ⟨b, a, hcut⟩ := cutDot_some_of_hasDot eTLD hd
  rw [hcut]
  simp only [peelOne, hcut]

/-- C1 witness: one peeling step on `foo.blogspot.com` continues the loop
on the private suffix `blogspot.com` with its leftmost label removed. -/
theorem C1_private_peeling_witness :
    icannSuffixFuel sampleDB 2 (s2l "foo.blogspot.com")
      = icannSuffixFuel sampleDB 1 (peelOne (s2l "blogspot.com")) :=
  C1_private_peeling.1 sampleDB (s2l "foo.blogspot.com") (s2l "blogspot.com") 1
    (by decide) (by decide)

/-- C2: the peeling loop does NOT terminate on every input: when the
lookup yields a privately-managed single-label match, the loop body at
src/handler.go:175-181 leaves `domain` unchanged (the `return ""` at
src/handler.go:179 is unreachable), so the loop never returns, for any
amount of fuel — the function does not return the empty string there. -/
theorem C2_peeling_divergence :
    WF loopDB ∧ publicSuffix loopDB (s2l "x") = (s2l "x", false) ∧
    hasDot (s2l "x") = false ∧
    ∀ n, icannSuffixFuel loopDB n (s2l "x") = none := by
  refine ⟨by decide, by decide, by decide, ?_⟩
  intro n
  induction n with
  | zero => rfl
  | succ n ih => exact ih

/-- C3: a single-label domain on which the lookup reports the implicit
default match (one label, ICANN authority) yields `is_icann = true`,
`domain_suffix` equal to the label itself, and `registered_domain` empty
because there is no room for an extra label. -/
theorem C3_default_single_label (db : List Rule) (d : List Char)
    (hnd : hasDot d = false)
    (hlk : lookup db (splitDots d) = (1, Authority.ICANN)) :
    isIcann db d = true ∧ domainSuffix db d = d ∧
      ∀ n, registeredDomain db (n + 1) d = some [] := by
  have hsplit := splitDots_of_hasDot_eq_false d hnd
  have hps : publicSuffix db d = (d, true) := by
    rw [hsplit] at hlk
    simp only [publicSuffix, hsplit, lastLabels, hlk]
    rfl
  refine ⟨?_, ?_, ?_⟩
  · show (publicSuffix db d).2 = true
    rw [hps]
  · show (publicSuffix db d).1 = d
    rw [hps]
  · intro n
    have h1 : icannSuffixFuel db (n + 1) d = some d := by
      rw [icannSuffixFuel_succ, hps]
      rfl
    show (icannSuffixFuel db (n + 1) d).map (fun ps => suffixPlusOne d ps)
      = some []
    rw [h1]
    show some (suffixPlusOne d d) = some []
    simp [suffixPlusOne]

/-- C3 witness: the unlisted single-label input `localhost`. -/
theorem C3_default_single_label_witness :
    isIcann sampleDB (s2l "localhost") = true ∧
    domainSuffix sampleDB (s2l "localhost") = s2l "localhost" ∧
    registeredDomain sampleDB 1 (s2l "localhost") = some [] := by
  obtain ⟨h1, h2, h3⟩ := C3_default_single_label sampleDB (s2l "localhost")
    (by decide) (by decide)
  exact ⟨h1, h2, h3 0⟩

/-- C4 counterexample: the handler performs no case folding of the host
(src/handler.go:89-108 never lower-cases the host value), so the outputs
for `Example.COM` differ from those for its lower-cased form
`example.com` — refuting the claimed case invariance. -/
theorem C4_case_counterexample :
    lowerStr (s2l "Example.COM") = s2l "example.com" ∧
    hostDomainSuffix sampleDB (s2l "Example.COM")
      ≠ hostDomainSuffix sampleDB (lowerStr (s2l "Example.COM")) := by
  exact ⟨by decide, by decide⟩

/-- C4 amended: the host is used verbatim (no case folding), so the five
outputs agree between a host and its lower-cased form exactly when the
host is already lower-case. -/
theorem C4_case_only_when_lower (db : List Rule) (host : List Char)
    (h : lowerStr host = host) :
    hostIsIcann db host = hostIsIcann db (lowerStr host) ∧
    hostDomainSuffix db host = hostDomainSuffix db (lowerStr host) ∧
    hostPublicSuffix db host = hostPublicSuffix db (lowerStr host) ∧
    (∀ f, hostRegisteredDomain db f host
      = hostRegisteredDomain db f (lowerStr host)) ∧
    hostPublicRegisteredDomain db host
      = hostPublicRegisteredDomain db (lowerStr host) := by
  rw [h]
  exact ⟨rfl, rfl, rfl, fun f => rfl, rfl⟩

/-- C4 witness: an already lower-case host. -/
theorem C4_case_only_when_lower_witness :
    hostDomainSuffix sampleDB (s2l "example.com")
      = hostDomainSuffix sampleDB (lowerStr (s2l "example.com")) :=
  (C4_case_only_when_lower sampleDB (s2l "example.com") (by decide)).2.1

/-- C5: `public_registered_domain` equals the registered domain exactly
when the original, unpeeled domain's match has ICANN authority, and is
empty otherwise; only the outermost match's authority gates it, and a
non-empty value implies `is_icann`. -/
theorem C5_authority_gating (db : List Rule) (d : List Char) :
    (publicRegisteredDomain db d
      = if isIcann db d then suffixPlusOne d (domainSuffix db d) else []) ∧
    (publicRegisteredDomain db d ≠ [] → isIcann db d = true) ∧
    (isIcann db d = false → publicRegisteredDomain db d = []) ∧
    (isIcann db d = true →
      ∀ n, registeredDomain db (n + 1) d = some (publicRegisteredDomain db d)) := by
  have hpr : publicRegisteredDomain db d =
      if (publicSuffix db d).2 then suffixPlusOne d (publicSuffix db d).1 else [] :=
    rfl
  refine ⟨rfl, ?_, ?_, ?_⟩
  · intro hne
    rcases Bool.eq_false_or_eq_true (isIcann db d) with hic | hic
    · exact hic
    · have hic2 : (publicSuffix db d).2 = false := hic
      exact absurd (by rw [hpr, hic2]; rfl) hne
  · intro hic
    have hic2 : (publicSuffix db d).2 = false := hic
    rw [hpr, hic2]
    rfl
  · intro hic n
    have hic2 : (publicSuffix db d).2 = true := hic
    have h1 : icannSuffixFuel db (n + 1) d = some (publicSuffix db d).1 := by
      rw [icannSuffixFuel_succ, hic2]
      rfl
    show (icannSuffixFuel db (n + 1) d).map (fun ps => suffixPlusOne d ps)
      = some (publicRegisteredDomain db d)
    rw [h1, hpr, hic2]
    rfl

/-- C5 witness: `sub.example.com`, whose unpeeled match is ICANN. -/
theorem C5_authority_gating_witness :
    registeredDomain sampleDB 1 (s2l "sub.example.com")
      = some (publicRegisteredDomain sampleDB (s2l "sub.example.com")) :=
  (C5_authority_gating sampleDB (s2l "sub.example.com")).2.2.2 (by decide) 0

/-- C6: `suffixPlusOne` is total (in particular its one index access is in
bounds whenever reached) and agrees on every input with
`suffixPlusOneSpec`, the algorithm as worded by the specification. -/
theorem C6_suffixPlusOne_algorithm (domain suffix : List Char) :
    suffixPlusOne domain suffix = suffixPlusOneSpec domain suffix ∧
    (suffix.length < domain.length →
      domain.length - suffix.length - 1 < domain.length) :=
  ⟨suffixPlusOne_eq_spec domain suffix, by omega⟩

/-- C6 witness: a concrete evaluation of both sides. -/
theorem C6_suffixPlusOne_algorithm_witness :
    suffixPlusOne (s2l "sub.example.com") (s2l "com")
      = suffixPlusOneSpec (s2l "sub.example.com") (s2l "com") ∧
    (s2l "sub.example.com").length - (s2l "com").length - 1
      < (s2l "sub.example.com").length :=
  ⟨(C6_suffixPlusOne_algorithm (s2l "sub.example.com") (s2l "com")).1,
    (C6_suffixPlusOne_algorithm (s2l "sub.example.com") (s2l "com")).2 (by decide)⟩

/-- C7: for the empty host no error value is produced and the outputs
that do return are empty / `false` — `is_icann` is `false`,
`domain_suffix` and `public_registered_domain` are empty — but
`public_suffix` and `registered_domain` never return at all: the lookup of
the empty domain yields the empty non-ICANN suffix, which contains no dot,
so the peeling loop at src/handler.go:168-183 re-runs the same lookup on
the unchanged empty domain forever (the same dead-guard bug as in the
single-label case), for any amount of fuel. -/
theorem C7_empty_host_diverges (db : List Rule) :
    hostIsIcann db (s2l "") = false ∧
    hostDomainSuffix db (s2l "") = [] ∧
    hostPublicRegisteredDomain db (s2l "") = [] ∧
    ∀ n, icannSuffixFuel db n [] = none ∧
      hostRegisteredDomain db n (s2l "") = none := by
  refine ⟨rfl, rfl, rfl, ?_⟩
  intro n
  induction n with
  | zero => exact ⟨rfl, rfl⟩
  | succ n ih =>
    refine ⟨ih.1, ?_⟩
    show (icannSuffixFuel db (n + 1) []).map (fun ps => suffixPlusOne [] ps)
      = none
    have hstep : icannSuffixFuel db (n + 1) [] = icannSuffixFuel db n [] := rfl
    rw [hstep, ih.1]
    rfl

/-- C8: for a well-formed database, `domain_suffix(d)` is a dot-delimited
trailing substring of `d` (it is `d` itself or is preceded by a dot in
`d`), and every value returned by the `public_suffix` peeling loop is a
trailing substring of `d`. -/
theorem C8_suffix_containment (db : List Rule) (d : List Char) (hdb : WF db) :
    domainSuffix db d <:+ d ∧
    (domainSuffix db d = d ∨ ('.' :: domainSuffix db d) <:+ d) ∧
    ∀ n s, icannSuffixFuel db n d = some s → s <:+ d := by
  have hds := domainSuffix_dotSuffix db hdb d
  refine ⟨?_, hds, ?_⟩
  · rcases hds with h | h
    · rw [h]
    · exact (suffix_cons_self '.' _).trans h
  · intro n s hfs
    rcases icannSuffixFuel_dotSuffix db hdb n d s hfs with rfl | h
    · exact List.suffix_refl s
    · exact (suffix_cons_self '.' _).trans h

/-- C8 witness: `foo.blogspot.com` in the sample database. -/
theorem C8_suffix_containment_witness :
    domainSuffix sampleDB (s2l "foo.blogspot.com") <:+ s2l "foo.blogspot.com" ∧
    s2l "com" <:+ s2l "foo.blogspot.com" := by
  have h := C8_suffix_containment sampleDB (s2l "foo.blogspot.com") (by decide)
  exact ⟨h.1, h.2.2 2 (s2l "com") (by decide)⟩

/-- C9: whenever the peeling loop returns a non-empty `public_suffix`
that is not the whole domain, the registered domain is `suffixPlusOne` of
it and has exactly one more dot-separated label than the public suffix. -/
theorem C9_label_growth (db : List Rule) (n : Nat) (d ps : List Char)
    (hdb : WF db) (hfs : icannSuffixFuel db n d = some ps)
    (_hne : ps ≠ []) (hwhole : ps ≠ d) :
    registeredDomain db n d = some (suffixPlusOne d ps) ∧
    labelCount (suffixPlusOne d ps) = labelCount ps + 1 := by
  refine ⟨by simp [registeredDomain, hfs], ?_⟩
  rcases icannSuffixFuel_dotSuffix db hdb n d ps hfs with h | h
  · exact absurd h hwhole
  · obtain ⟨pre, hpre⟩ := h
    have hspec := (lastIndexOf_spec '.' pre).2
    have hnd : hasDot (pre.drop (lastIndexOf '.' pre + 1).toNat) = false :=
      (hasDot_eq_false_iff _).mpr fun hm => (hspec '.' hm) rfl
    rw [← hpre, suffixPlusOne_of_dotSuffix]
    exact labelCount_append_dotless _ ps hnd

/-- C9 witness: `foo.blogspot.com` with public suffix `com` and registered
domain `blogspot.com`. -/
theorem C9_label_growth_witness :
    registeredDomain sampleDB 2 (s2l "foo.blogspot.com")
      = some (suffixPlusOne (s2l "foo.blogspot.com") (s2l "com")) ∧
    labelCount (suffixPlusOne (s2l "foo.blogspot.com") (s2l "com"))
      = labelCount (s2l "com") + 1 :=
  C9_label_growth sampleDB 2 (s2l "foo.blogspot.com") (s2l "com")
    (by decide) (by decide) (by decide) (by decide)

/-- C10: when the unpeeled match has ICANN authority, the peeling loop
returns that very match on its first iteration, so the
`registered_domain` path (`suffixPlusOne` after peeling) and the
`public_registered_domain` path (`suffixPlusOne` on the unrestricted
suffix of the whole domain) produce the same string. -/
theorem C10_paths_agree (db : List Rule) (d : List Char) (n : Nat)
    (hic : isIcann db d = true) :
    icannSuffixFuel db (n + 1) d = some (domainSuffix db d) ∧
    registeredDomain db (n + 1) d = some (suffixPlusOne d (domainSuffix db d)) ∧
    publicRegisteredDomain db d = suffixPlusOne d (domainSuffix db d) := by
  have hic2 : (publicSuffix db d).2 = true := hic
  have h1 : icannSuffixFuel db (n + 1) d = some (publicSuffix db d).1 := by
    rw [icannSuffixFuel_succ, hic2]
    rfl
  refine ⟨h1, ?_, ?_⟩
  · show (icannSuffixFuel db (n + 1) d).map (fun ps => suffixPlusOne d ps)
      = some (suffixPlusOne d (domainSuffix db d))
    rw [h1]
    rfl
  · show (if (publicSuffix db d).2 then suffixPlusOne d (publicSuffix db d).1
      else []) = suffixPlusOne d (domainSuffix db d)
    rw [hic2]
    rfl

/-- C10 witness: `sub.example.com`. -/
theorem C10_paths_agree_witness :
    registeredDomain sampleDB 1 (s2l "sub.example.com")
      = some (suffixPlusOne (s2l "sub.example.com")
          (domainSuffix sampleDB (s2l "sub.example.com"))) :=
  (C10_paths_agree sampleDB (s2l "sub.example.com") 0 (by decide)).2.1
